import Mathlib

/-!
Verification of the `native-clone` repository (src/nativeClone.ts).

The file shallowly embeds the cloner strategies of `nativeClone.ts`:
the `StructuredCloner` base class, the `registerCloner` registry, the
`MessageChannelAsyncCloner` and `PostMessageAsyncCloner` correlation
multiplexers (modelled as explicit state machines over event traces),
and the `IndexedDBAsyncCloner` store round-trip.  JavaScript `Map`
objects are modelled as association lists with `Map.get` / `Map.set` /
`Map.delete` semantics; JavaScript strings are modelled as `List Char`;
promise resolution is modelled by recording `(promiseId, value)` pairs;
a handler that would throw is modelled by returning `none`.
-/

namespace NativeClone

/-! ### JavaScript `Map` operations on association lists

A `Map<K, V>` is modelled as a `List (κ × β)`.  `mapGet` returns the
first binding of a key (the only one, since `Map` keys are unique),
`mapSet` replaces an existing binding or appends a fresh one, and
`mapDelete` removes the binding of a key. -/

def mapGet {κ β : Type} [DecidableEq κ] (m : List (κ × β)) (k : κ) : Option β :=
  match m with
  | [] => none
  | p :: rest => if p.1 = k then some p.2 else mapGet rest k

def mapSet {κ β : Type} [DecidableEq κ] (m : List (κ × β)) (k : κ) (v : β) :
    List (κ × β) :=
  match m with
  | [] => [(k, v)]
  | p :: rest => if p.1 = k then (k, v) :: rest else p :: mapSet rest k v

def mapDelete {κ β : Type} [DecidableEq κ] (m : List (κ × β)) (k : κ) : List (κ × β) :=
  match m with
  | [] => []
  | p :: rest => if p.1 = k then mapDelete rest k else p :: mapDelete rest k

theorem mapGet_eq_none_iff {κ β : Type} [DecidableEq κ] (m : List (κ × β)) (k : κ) :
    mapGet m k = none ↔ ∀ p ∈ m, p.1 ≠ k := by
  induction m with
  | nil => simp [mapGet]
  | cons p rest ih =>
    by_cases h : p.1 = k
    · simp [mapGet, h]
    · simp [mapGet, h, ih]

theorem mapGet_mem {κ β : Type} [DecidableEq κ] {m : List (κ × β)} {k : κ} {b : β}
    (hnd : (m.map Prod.fst).Nodup) (hmem : (k, b) ∈ m) : mapGet m k = some b := by
  induction m with
  | nil => simp at hmem
  | cons p rest ih =>
    simp only [List.map_cons, List.nodup_cons] at hnd
    rcases List.mem_cons.mp hmem with h | h
    · subst h; simp [mapGet]
    · have hne : p.1 ≠ k := by
        intro he
        exact hnd.1 (he ▸ List.mem_map.mpr ⟨(k, b), h, rfl⟩)
      simp [mapGet, hne, ih hnd.2 h]

theorem mapSet_fresh {κ β : Type} [DecidableEq κ] {m : List (κ × β)} {k : κ} (v : β)
    (h : ∀ p ∈ m, p.1 ≠ k) : mapSet m k v = m ++ [(k, v)] := by
  induction m with
  | nil => simp [mapSet]
  | cons p rest ih =>
    have hp : p.1 ≠ k := h p (List.mem_cons_self _ _)
    simp only [mapSet, if_neg hp, List.cons_append, List.cons.injEq, true_and]
    exact ih (fun q hq => h q (List.mem_cons_of_mem _ hq))

theorem mem_mapDelete {κ β : Type} [DecidableEq κ] {m : List (κ × β)} {k : κ}
    {p : κ × β} (hp : p ∈ mapDelete m k) : p ∈ m ∧ p.1 ≠ k := by
  induction m with
  | nil => simp [mapDelete] at hp
  | cons q rest ih =>
    by_cases h : q.1 = k
    · simp only [mapDelete, if_pos h] at hp
      exact ⟨List.mem_cons_of_mem _ (ih hp).1, (ih hp).2⟩
    · simp only [mapDelete, if_neg h] at hp
      rcases List.mem_cons.mp hp with he | he
      · exact ⟨he ▸ List.mem_cons_self _ _, he ▸ h⟩
      · exact ⟨List.mem_cons_of_mem _ (ih he).1, (ih he).2⟩

theorem mapGet_mapDelete_self {κ β : Type} [DecidableEq κ] (m : List (κ × β)) (k : κ) :
    mapGet (mapDelete m k) k = none := by
  rw [mapGet_eq_none_iff]
  intro p hp
  exact (mem_mapDelete hp).2

theorem mapDelete_of_absent {κ β : Type} [DecidableEq κ] {m : List (κ × β)} {k : κ}
    (h : ∀ p ∈ m, p.1 ≠ k) : mapDelete m k = m := by
  induction m with
  | nil => rfl
  | cons q rest ih =>
    have hq : q.1 ≠ k := h q (List.mem_cons_self _ _)
    simp only [mapDelete, if_neg hq, List.cons.injEq, true_and]
    exact ih (fun p hp => h p (List.mem_cons_of_mem _ hp))

/-! ### Decimal rendering of JavaScript numbers

`PostMessageAsyncCloner` builds its correlation keys by string
interpolation of a counter.  JavaScript strings are modelled as
`List Char`; `natChars n` is the usual base-10 rendering of a natural
number (most significant digit first), matching ECMAScript `ToString`
on the nonnegative integers that occur here.  Injectivity is proved by
a parse round-trip. -/

def natCharsCore (fuel : Nat) (n : Nat) : List Char :=
  match fuel with
  | 0 => []
  | fuel + 1 =>
    if n < 10 then [Nat.digitChar n]
    else natCharsCore fuel (n / 10) ++ [Nat.digitChar (n % 10)]

def natChars (n : Nat) : List Char :=
  natCharsCore (n + 1) n

def digitVal (c : Char) : Nat := c.toNat - 48

def parseChars (l : List Char) : Nat :=
  l.foldl (fun a c => a * 10 + digitVal c) 0

theorem digitVal_digitChar_all : ∀ d < 10, digitVal (Nat.digitChar d) = d := by
  decide

theorem digitVal_digitChar {d : Nat} (h : d < 10) :
    digitVal (Nat.digitChar d) = d :=
  digitVal_digitChar_all d h

theorem parseChars_shift (l : List Char) (a : Nat) :
    (l.foldl (fun a c => a * 10 + digitVal c) a) =
      a * 10 ^ l.length + parseChars l := by
  induction l generalizing a with
  | nil => simp [parseChars]
  | cons c rest ih =>
    have h2 : parseChars (c :: rest) = digitVal c * 10 ^ rest.length + parseChars rest := by
      have h0 := ih (0 * 10 + digitVal c)
      simpa [parseChars] using h0
    rw [List.foldl_cons, ih, h2, List.length_cons, pow_succ]
    ring

theorem parseChars_natCharsCore (fuel : Nat) :
    ∀ n, n < fuel → parseChars (natCharsCore fuel n) = n := by
  induction fuel with
  | zero => intro n hn; omega
  | succ fuel ih =>
    intro n hn
    rw [natCharsCore]
    by_cases h : n < 10
    · simp [h, parseChars, digitVal_digitChar h]
    · rw [if_neg h]
      have hlt : n / 10 < fuel := by omega
      simp only [parseChars, List.foldl_append, List.foldl_cons, List.foldl_nil]
      have hrec := ih (n / 10) hlt
      simp only [parseChars] at hrec
      rw [hrec, digitVal_digitChar (Nat.mod_lt n (by omega))]
      omega

theorem parseChars_natChars (n : Nat) : parseChars (natChars n) = n :=
  parseChars_natCharsCore (n + 1) n (Nat.lt_succ_self n)

/-! ### The `StructuredCloner` base class

`cloneSync` on the base class throws `new Error("not supported")`; a
throwing method is modelled as `Except String`.  The base `cloneAsync`
is `async cloneAsync(value) { return this.cloneSync(value); }`: the
returned promise resolves with `cloneSync`'s result and rejects with
the error `cloneSync` throws, which is exactly the `Except` value
itself. -/

def StructuredCloner.cloneSync {α : Type} (_value : α) : Except String α :=
  .error "not supported"

def StructuredCloner.cloneAsync {α : Type} (cloneSync : α → Except String α)
    (value : α) : Except String α :=
  cloneSync value

/-- `MessageChannelAsyncCloner` does not override `cloneSync`, so its
synchronous surface is the inherited base method. -/
def MessageChannelAsyncCloner.cloneSync {α : Type} (value : α) : Except String α :=
  StructuredCloner.cloneSync value

/-- `IndexedDBAsyncCloner` does not override `cloneSync`. -/
def IndexedDBAsyncCloner.cloneSync {α : Type} (value : α) : Except String α :=
  StructuredCloner.cloneSync value

/-- `PostMessageAsyncCloner` does not override `cloneSync`. -/
def PostMessageAsyncCloner.cloneSync {α : Type} (value : α) : Except String α :=
  StructuredCloner.cloneSync value

/-! ### The cloner registry

`registerCloner` is a decorator: it pushes the constructor onto the
module-level `clonerFactories` array and returns the constructor.  The
four decorated classes are identified by name. -/

inductive ClonerClass : Type
  | nodeV8SerializeSyncCloner
  | messageChannelAsyncCloner
  | indexedDBAsyncCloner
  | postMessageAsyncCloner
deriving DecidableEq, Repr

def registerCloner (clonerFactories : List ClonerClass) (constructor : ClonerClass) :
    List ClonerClass × ClonerClass :=
  (clonerFactories ++ [constructor], constructor)

/-- `clonerFactories` after module initialization: the decorators run in
declaration order of the four classes. -/
def clonerFactories : List ClonerClass :=
  let r0 := registerCloner [] .nodeV8SerializeSyncCloner
  let r1 := registerCloner r0.1 .messageChannelAsyncCloner
  let r2 := registerCloner r1.1 .indexedDBAsyncCloner
  let r3 := registerCloner r2.1 .postMessageAsyncCloner
  r3.1

/-! ### Selector and public facade

Modelled from the spec: the Selector and the Public Facade
(`cloneSync` / `cloneAsync` / `canCloneSync` / `canCloneAsync` entry
points) are not present under `src/`; only the strategy classes and
the registry are.  Following the spec: the Selector iterates the
registered strategies — `clonerFactories`, in its registration order,
which is the priority order — and adopts, for each call mode, the
first class whose `mayBeSupported` probe returns true.  The probes
read the host environment (`typeof require`, `typeof MessageChannel`,
`typeof indexedDB`, `typeof self`), so an environment is modelled as a
`ClonerClass → Bool` assignment of probe outcomes.  The facade
delegates every call to the frozen choice and fails with the distinct
"no native implementation" error when no strategy was selected, with
`cloneAsync` falling back to wrapping `cloneSync` when no async
strategy was selected. -/

/-- `isSync()`: whether the class overrides the base `cloneSync`
(`this.prototype.cloneSync !== StructuredCloner.prototype.cloneSync`).
Only `NodeV8SerializeSyncCloner` overrides it. -/
def ClonerClass.isSync : ClonerClass → Bool
  | .nodeV8SerializeSyncCloner => true
  | .messageChannelAsyncCloner => false
  | .indexedDBAsyncCloner => false
  | .postMessageAsyncCloner => false

/-- The synchronous clone surface of each registered class:
`NodeV8SerializeSyncCloner.cloneSync` is the native
`v8.deserialize(v8.serialize(value))` round trip (the abstract
`v8clone`); the other three classes inherit the base thrower. -/
def ClonerClass.cloneSync {α : Type} (v8clone : α → α) :
    ClonerClass → α → Except String α
  | .nodeV8SerializeSyncCloner => fun value => .ok (v8clone value)
  | .messageChannelAsyncCloner => MessageChannelAsyncCloner.cloneSync
  | .indexedDBAsyncCloner => IndexedDBAsyncCloner.cloneSync
  | .postMessageAsyncCloner => PostMessageAsyncCloner.cloneSync

/-- Modelled from the spec: the Selector's sync slot — the first
registered sync-capable class whose probe returns true, in registry
order. -/
def selectSyncCloner (probes : ClonerClass → Bool) : Option ClonerClass :=
  clonerFactories.find? (fun c => c.isSync && probes c)

/-- Modelled from the spec: the Selector's async slot — the first
registered class whose probe returns true, in registry order (every
strategy offers `cloneAsync`). -/
def selectAsyncCloner (probes : ClonerClass → Bool) : Option ClonerClass :=
  clonerFactories.find? (fun c => probes c)

/-- Modelled from the spec: `canCloneSync` reflects whether a sync
strategy was selected from the registry. -/
def canCloneSync (probes : ClonerClass → Bool) : Bool :=
  (selectSyncCloner probes).isSome

/-- Modelled from the spec: `canCloneAsync` reflects whether a
non-fallback async strategy was selected from the registry. -/
def canCloneAsync (probes : ClonerClass → Bool) : Bool :=
  (selectAsyncCloner probes).isSome

/-- Modelled from the spec: facade `cloneSync` delegates to the selected
sync strategy, or fails with the "no native implementation" error. -/
def facadeCloneSync {α : Type} (v8clone : α → α) (probes : ClonerClass → Bool)
    (value : α) : Except String α :=
  match selectSyncCloner probes with
  | some c => ClonerClass.cloneSync v8clone c value
  | none => .error "no native implementation"

/-- Modelled from the spec: facade `cloneAsync` delegates to the selected
async strategy (whose boundary round trip is `cloneAsyncOf`), falling
back to wrapping `cloneSync` when none was selected. -/
def facadeCloneAsync {α : Type} (v8clone : α → α)
    (cloneAsyncOf : ClonerClass → α → Except String α)
    (probes : ClonerClass → Bool) (value : α) : Except String α :=
  match selectAsyncCloner probes with
  | some c => cloneAsyncOf c value
  | none => facadeCloneSync v8clone probes value

theorem natChars_injective : Function.Injective natChars := by
  intro m n h
  have := parseChars_natChars m
  rw [h, parseChars_natChars] at this
  omega

/-! ### `MessageChannelAsyncCloner`

The constructor creates a `MessageChannel`, keeps `pendingClones :
Map<number, resolve>` and `nextIndex = 0`, posts `[key, value]` on
`inPort`, and installs an `onmessage` handler on `outPort`.  The state
machine below models one instance: `pendingClones` maps a key to the
identifier of the caller's promise; `inFlight` holds the messages
posted on `inPort` whose (structured-cloned) echo has not yet been
delivered to `outPort`; `resolved` records promise resolutions;
`assigned` is a ghost log of every key `cloneAsync` has handed out;
`disabled` is the inherited `StructuredCloner` field.  The platform's
structured clone performed by the channel is an abstract function
`clone`. -/

structure MCState (α : Type) where
  pendingClones : List (Nat × Nat)
  nextIndex : Nat
  inFlight : List (Nat × α)
  resolved : List (Nat × α)
  assigned : List Nat
  disabled : Bool
deriving DecidableEq, Repr

def MCinit {α : Type} : MCState α :=
  { pendingClones := []
    nextIndex := 0
    inFlight := []
    resolved := []
    assigned := []
    disabled := false }

/-- The `outPort.onmessage` handler: destructure `[key, value]`, look the
key up in `pendingClones`, call the stored `resolve`, delete the entry.
The lookup is unguarded (`get(key) as (clonedValue: any) => void`): when
the key has no entry, `resolve` is `undefined` and calling it throws —
modelled by `none`. -/
def MConmessage {α : Type} (key : Nat) (value : α) (s : MCState α) :
    Option (MCState α) :=
  match mapGet s.pendingClones key with
  | none => none
  | some pid =>
    some { s with
            resolved := s.resolved ++ [(pid, value)]
            pendingClones := mapDelete s.pendingClones key }

/-- `cloneAsync`: draw `key = this.nextIndex++`, record the promise's
`resolve` under `key`, post `[key, value]` on `inPort`.  `pid` identifies
the caller's promise. -/
def MCcloneAsync {α : Type} (pid : Nat) (value : α) (s : MCState α) : MCState α :=
  let key := s.nextIndex
  { s with
      nextIndex := s.nextIndex + 1
      pendingClones := mapSet s.pendingClones key pid
      inFlight := s.inFlight ++ [(key, value)]
      assigned := s.assigned ++ [key] }

/-- Events of one `MessageChannelAsyncCloner` instance: a `cloneAsync`
call, or the channel delivering the echo of a posted message (the
channel is private, so every delivered message is an echo of a posted
one, but delivery order is arbitrary). -/
inductive MCEvent (α : Type) : Type
  | send (pid : Nat) (value : α)
  | deliver (key : Nat)

def MCstep {α : Type} (clone : α → α) (e : MCEvent α) (s : MCState α) :
    Option (MCState α) :=
  match e with
  | .send pid value => some (MCcloneAsync pid value s)
  | .deliver key =>
    match mapGet s.inFlight key with
    | none => none
    | some value =>
      MConmessage key (clone value) { s with inFlight := mapDelete s.inFlight key }

def MCrun {α : Type} (clone : α → α) (es : List (MCEvent α)) (s : MCState α) :
    Option (MCState α) :=
  match es with
  | [] => some s
  | e :: rest =>
    match MCstep clone e s with
    | none => none
    | some s' => MCrun clone rest s'

theorem MCrun_append {α : Type} (clone : α → α) (es₁ es₂ : List (MCEvent α))
    (s : MCState α) :
    MCrun clone (es₁ ++ es₂) s =
      match MCrun clone es₁ s with
      | none => none
      | some s' => MCrun clone es₂ s' := by
  induction es₁ generalizing s with
  | nil => simp [MCrun]
  | cons e rest ih =>
    simp only [List.cons_append, MCrun]
    cases MCstep clone e s with
    | none => rfl
    | some s' => exact ih s'

/-! #### The correlation invariant

`pend` lists the outstanding requests of the instance, oldest first:
`(key, pid, value)` means the caller of promise `pid` asked to clone
`value` and was assigned `key`.  In any reachable state the pending
table and the in-flight message list are its two projections, keys are
pairwise distinct, and every outstanding key was drawn below
`nextIndex`. -/

def MCInv {α : Type} (pend : List (Nat × Nat × α)) (s : MCState α) : Prop :=
  s.pendingClones = pend.map (fun t => (t.1, t.2.1)) ∧
  s.inFlight = pend.map (fun t => (t.1, t.2.2)) ∧
  (pend.map Prod.fst).Nodup ∧
  (∀ t ∈ pend, t.1 < s.nextIndex)

/-! Generic lemmas about the two projections of an outstanding-request
list (shared by the `MessageChannel` and `postMessage` multiplexers). -/

theorem mapGet_map_key {ι κ β : Type} [DecidableEq κ] {pend : List ι} {t : ι}
    (key : ι → κ) (f : ι → β) (hnd : (pend.map key).Nodup) (ht : t ∈ pend) :
    mapGet (pend.map fun u => (key u, f u)) (key t) = some (f t) := by
  apply mapGet_mem
  · have : (pend.map fun u => (key u, f u)).map Prod.fst = pend.map key := by
      simp [List.map_map, Function.comp]
    rw [this]; exact hnd
  · exact List.mem_map.mpr ⟨t, ht, rfl⟩

/-- Remove from an outstanding-request list every entry whose key is `k`
(mirrors `mapDelete` on its projections). -/
def filterNe {ι κ : Type} [DecidableEq κ] (key : ι → κ) (k : κ) : List ι → List ι
  | [] => []
  | u :: rest => if key u = k then filterNe key k rest else u :: filterNe key k rest

theorem filterNe_sublist {ι κ : Type} [DecidableEq κ] (key : ι → κ) (k : κ)
    (l : List ι) : (filterNe key k l).Sublist l := by
  induction l with
  | nil => simp [filterNe]
  | cons u rest ih =>
    by_cases h : key u = k
    · simp only [filterNe, if_pos h]
      exact ih.cons u
    · simp only [filterNe, if_neg h]
      exact ih.cons₂ u

theorem filterNe_of_absent {ι κ : Type} [DecidableEq κ] {key : ι → κ} {k : κ}
    {l : List ι} (h : ∀ u ∈ l, key u ≠ k) : filterNe key k l = l := by
  induction l with
  | nil => rfl
  | cons u rest ih =>
    have hu : key u ≠ k := h u (List.mem_cons_self _ _)
    simp only [filterNe, if_neg hu, List.cons.injEq, true_and]
    exact ih (fun v hv => h v (List.mem_cons_of_mem _ hv))

theorem mapDelete_map_key {ι κ β : Type} [DecidableEq κ] (pend : List ι)
    (key : ι → κ) (f : ι → β) (k : κ) :
    mapDelete (pend.map fun u => (key u, f u)) k =
      (filterNe key k pend).map (fun u => (key u, f u)) := by
  induction pend with
  | nil => rfl
  | cons u rest ih =>
    by_cases h : key u = k
    · simp only [List.map_cons, mapDelete, filterNe, if_pos h, ih]
    · simp only [List.map_cons, mapDelete, filterNe, if_neg h, ih, List.map_cons]

theorem perm_cons_filterNe {ι κ : Type} [DecidableEq κ] {pend : List ι} {t : ι}
    (key : ι → κ) (hnd : (pend.map key).Nodup) (ht : t ∈ pend) :
    pend.Perm (t :: filterNe key (key t) pend) := by
  induction pend with
  | nil => simp at ht
  | cons u rest ih =>
    simp only [List.map_cons, List.nodup_cons] at hnd
    rcases List.mem_cons.mp ht with h | h
    · subst h
      have hrest : filterNe key (key t) rest = rest := by
        apply filterNe_of_absent
        intro v hv he
        exact hnd.1 (he ▸ List.mem_map.mpr ⟨v, hv, rfl⟩)
      simp only [filterNe, if_pos rfl, hrest]
      exact List.Perm.refl _
    · have hne : key u ≠ key t := by
        intro he
        exact hnd.1 (he.symm ▸ List.mem_map.mpr ⟨t, h, rfl⟩)
      have hperm := ih hnd.2 h
      have h1 : (u :: rest).Perm (u :: t :: filterNe key (key t) rest) :=
        hperm.cons u
      have h2 : (u :: t :: filterNe key (key t) rest).Perm
          (t :: u :: filterNe key (key t) rest) := List.Perm.swap _ _ _
      have h3 : t :: u :: filterNe key (key t) rest =
          t :: filterNe key (key t) (u :: rest) := by
        simp only [filterNe, if_neg hne]
      exact (h1.trans h2).trans (h3 ▸ List.Perm.refl _)

theorem nodup_filterNe_keys {ι κ : Type} [DecidableEq κ] {pend : List ι}
    (key : ι → κ) (k : κ) (hnd : (pend.map key).Nodup) :
    ((filterNe key k pend).map key).Nodup :=
  ((filterNe_sublist key k pend).map key).nodup hnd

/-! #### Preservation of the invariant -/

theorem MCInv_send {α : Type} {pend : List (Nat × Nat × α)} {s : MCState α}
    (hinv : MCInv pend s) (pid : Nat) (value : α) :
    MCInv (pend ++ [(s.nextIndex, pid, value)]) (MCcloneAsync pid value s) := by
  obtain ⟨hpc, hif, hnd, hlt⟩ := hinv
  have hfresh : ∀ p ∈ s.pendingClones, p.1 ≠ s.nextIndex := by
    intro p hp
    rw [hpc] at hp
    obtain ⟨t, ht, rfl⟩ := List.mem_map.mp hp
    exact Nat.ne_of_lt (hlt t ht)
  have hset : mapSet s.pendingClones s.nextIndex pid =
      s.pendingClones ++ [(s.nextIndex, pid)] := mapSet_fresh pid hfresh
  refine ⟨?_, ?_, ?_, ?_⟩
  · show mapSet s.pendingClones s.nextIndex pid = _
    rw [hset, hpc, List.map_append]
    rfl
  · show s.inFlight ++ [(s.nextIndex, value)] = _
    rw [hif, List.map_append]
    rfl
  · simp only [List.map_append, List.nodup_append, List.map_cons, List.map_nil]
    refine ⟨hnd, List.nodup_singleton _, ?_⟩
    intro k hk
    obtain ⟨t, ht, rfl⟩ := List.mem_map.mp hk
    simp only [List.mem_singleton, List.mem_cons, List.not_mem_nil, or_false]
    intro he
    exact absurd (he ▸ hlt t ht) (lt_irrefl _)
  · intro t ht
    rcases List.mem_append.mp ht with h | h
    · exact Nat.lt_succ_of_lt (hlt t h)
    · simp only [List.mem_singleton] at h
      subst h
      exact Nat.lt_succ_self _

theorem MCstep_deliver {α : Type} (clone : α → α) {pend : List (Nat × Nat × α)}
    {s : MCState α} {t : Nat × Nat × α} (hinv : MCInv pend s) (ht : t ∈ pend) :
    MCstep clone (.deliver t.1) s =
      some { s with
              pendingClones :=
                (filterNe Prod.fst t.1 pend).map (fun u => (u.1, u.2.1))
              inFlight :=
                (filterNe Prod.fst t.1 pend).map (fun u => (u.1, u.2.2))
              resolved := s.resolved ++ [(t.2.1, clone t.2.2)] } := by
  obtain ⟨hpc, hif, hnd, _⟩ := hinv
  have hget : mapGet s.inFlight t.1 = some t.2.2 := by
    rw [hif]; exact mapGet_map_key Prod.fst (fun u => u.2.2) hnd ht
  have hgetp : mapGet s.pendingClones t.1 = some t.2.1 := by
    rw [hpc]; exact mapGet_map_key Prod.fst (fun u => u.2.1) hnd ht
  have hdp : mapDelete s.pendingClones t.1 =
      (filterNe Prod.fst t.1 pend).map (fun u => (u.1, u.2.1)) := by
    rw [hpc, mapDelete_map_key]
  have hdf : mapDelete s.inFlight t.1 =
      (filterNe Prod.fst t.1 pend).map (fun u => (u.1, u.2.2)) := by
    rw [hif, mapDelete_map_key]
  simp only [MCstep, hget, MConmessage, hgetp, hdp, hdf]

theorem MCInv_deliver {α : Type} {pend : List (Nat × Nat × α)} {s : MCState α}
    {t : Nat × Nat × α} (hinv : MCInv pend s) (clone : α → α) :
    MCInv (filterNe Prod.fst t.1 pend)
      { s with
          pendingClones :=
            (filterNe Prod.fst t.1 pend).map (fun u => (u.1, u.2.1))
          inFlight :=
            (filterNe Prod.fst t.1 pend).map (fun u => (u.1, u.2.2))
          resolved := s.resolved ++ [(t.2.1, clone t.2.2)] } := by
  obtain ⟨_, _, hnd, hlt⟩ := hinv
  refine ⟨rfl, rfl, nodup_filterNe_keys Prod.fst _ hnd, ?_⟩
  intro u hu
  exact hlt u ((filterNe_sublist Prod.fst t.1 pend).mem hu)

theorem mapGet_eq_some_mem {κ β : Type} [DecidableEq κ] {m : List (κ × β)} {k : κ}
    {b : β} (h : mapGet m k = some b) : (k, b) ∈ m := by
  induction m with
  | nil => simp [mapGet] at h
  | cons p rest ih =>
    by_cases hk : p.1 = k
    · simp only [mapGet, if_pos hk, Option.some.injEq] at h
      rw [← hk, ← h]
      exact List.mem_cons_self _ _
    · simp only [mapGet, if_neg hk] at h
      exact List.mem_cons_of_mem _ (ih h)

/-- Delivering the echoes of all outstanding requests, in an arbitrary
order `ks`, succeeds, empties the pending table and the channel, and
resolves every outstanding promise with the structured clone of its own
argument. -/
theorem MCdeliver_perm {α : Type} (clone : α → α) (ks : List Nat) :
    ∀ (pend : List (Nat × Nat × α)) (s : MCState α), MCInv pend s →
      ks.Perm (pend.map Prod.fst) →
      ∃ s', MCrun clone (ks.map MCEvent.deliver) s = some s' ∧
        s'.pendingClones = [] ∧ s'.inFlight = [] ∧
        s'.nextIndex = s.nextIndex ∧ s'.assigned = s.assigned ∧
        s'.disabled = s.disabled ∧
        ∃ l, s'.resolved = s.resolved ++ l ∧
          l.Perm (pend.map (fun t => (t.2.1, clone t.2.2))) := by
  induction ks with
  | nil =>
    intro pend s hinv hperm
    have hpend : pend = [] := by
      have := hperm.symm.eq_nil
      exact List.map_eq_nil_iff.mp this
    subst hpend
    obtain ⟨hpc, hif, _, _⟩ := hinv
    exact ⟨s, rfl, by simpa using hpc, by simpa using hif, rfl, rfl, rfl,
      [], by simp, by simp⟩
  | cons k ks ih =>
    intro pend s hinv hperm
    have hk : k ∈ pend.map Prod.fst :=
      hperm.mem_iff.mp (List.mem_cons_self _ _)
    obtain ⟨t, ht, htk⟩ := List.mem_map.mp hk
    subst htk
    have hstep := MCstep_deliver clone hinv ht
    have hinv₁ := MCInv_deliver hinv (t := t) clone
    have hndkeys := hinv.2.2.1
    have hpermpend : pend.Perm (t :: filterNe Prod.fst t.1 pend) :=
      perm_cons_filterNe Prod.fst hndkeys ht
    have hperm₁ : ks.Perm ((filterNe Prod.fst t.1 pend).map Prod.fst) := by
      have hmap : (pend.map Prod.fst).Perm
          (t.1 :: (filterNe Prod.fst t.1 pend).map Prod.fst) := by
        simpa using hpermpend.map Prod.fst
      exact (hperm.trans hmap).cons_inv
    obtain ⟨s', hrun, hpc', hif', hni', has', hdb', l, hres, hlperm⟩ :=
      ih _ _ hinv₁ hperm₁
    refine ⟨s', ?_, hpc', hif', hni', has', hdb', (t.2.1, clone t.2.2) :: l, ?_, ?_⟩
    · simp only [List.map_cons, MCrun, hstep, hrun]
    · rw [hres]
      simp
    · have hmapres : (pend.map (fun t => (t.2.1, clone t.2.2))).Perm
          ((t.2.1, clone t.2.2) ::
            (filterNe Prod.fst t.1 pend).map (fun t => (t.2.1, clone t.2.2))) := by
        simpa using hpermpend.map (fun t => (t.2.1, clone t.2.2))
      exact ((hlperm.cons _).trans hmapres.symm)

/-- States reachable from a fresh `MessageChannelAsyncCloner` instance:
some outstanding-request list witnesses the correlation invariant, the
ghost key log is exactly `0, 1, ..., nextIndex - 1`, and `disabled` is
still false. -/
def MCReachInv {α : Type} (s : MCState α) : Prop :=
  (∃ pend, MCInv pend s) ∧ s.assigned = List.range s.nextIndex ∧ s.disabled = false

theorem MCReachInv_init {α : Type} : MCReachInv (MCinit (α := α)) :=
  ⟨⟨[], rfl, rfl, List.nodup_nil, by simp⟩, by simp [MCinit], rfl⟩

theorem MCrun_reach {α : Type} (clone : α → α) (es : List (MCEvent α)) :
    ∀ {s s' : MCState α}, MCReachInv s → MCrun clone es s = some s' →
      MCReachInv s' := by
  induction es with
  | nil =>
    intro s s' h hrun
    simp only [MCrun, Option.some.injEq] at hrun
    exact hrun ▸ h
  | cons e rest ih =>
    intro s s' h hrun
    obtain ⟨⟨pend, hinv⟩, hassigned, hdisabled⟩ := h
    simp only [MCrun] at hrun
    cases e with
    | send pid value =>
      simp only [MCstep] at hrun
      refine ih ⟨⟨pend ++ [(s.nextIndex, pid, value)], MCInv_send hinv pid value⟩,
        ?_, hdisabled⟩ hrun
      simp [MCcloneAsync, hassigned, List.range_succ]
    | deliver k =>
      cases hstep0 : MCstep clone (.deliver k) s with
      | none => rw [hstep0] at hrun; exact absurd hrun (by simp)
      | some s₁ =>
        rw [hstep0] at hrun
        have hstep1 := hstep0
        simp only [MCstep] at hstep1
        cases hflight : mapGet s.inFlight k with
        | none => rw [hflight] at hstep1; exact absurd hstep1 (by simp)
        | some v =>
          have hmem : (k, v) ∈ s.inFlight := mapGet_eq_some_mem hflight
          rw [hinv.2.1] at hmem
          obtain ⟨t, ht, hteq⟩ := List.mem_map.mp hmem
          have ht1 : t.1 = k := congrArg Prod.fst hteq
          subst ht1
          have hstep := MCstep_deliver clone hinv ht
          have hs₁ := Option.some.inj (hstep0.symm.trans hstep)
          refine ih ⟨⟨filterNe Prod.fst t.1 pend, ?_⟩, ?_, ?_⟩ hrun
          · rw [hs₁]
            exact MCInv_deliver hinv clone
          · rw [hs₁]
            exact hassigned
          · rw [hs₁]
            exact hdisabled

/-- The trace of `n` concurrent `cloneAsync` calls: caller `i` (promise
`i`) asks to clone `v i`. -/
def sendEvents {α : Type} (n : Nat) (v : Nat → α) : List (MCEvent α) :=
  (List.range n).map (fun i => .send i (v i))

/-- The instance state after the `n` concurrent calls and before any
reply has been delivered. -/
def afterSends {α : Type} (n : Nat) (v : Nat → α) : MCState α :=
  { pendingClones := (List.range n).map (fun i => (i, i))
    nextIndex := n
    inFlight := (List.range n).map (fun i => (i, v i))
    resolved := []
    assigned := List.range n
    disabled := false }

theorem MCrun_sendEvents {α : Type} (clone : α → α) (n : Nat) (v : Nat → α) :
    MCrun clone (sendEvents n v) MCinit = some (afterSends n v) := by
  induction n with
  | zero => rfl
  | succ n ih =>
    have hsplit : sendEvents (n + 1) v =
        sendEvents n v ++ [.send n (v n)] := by
      simp [sendEvents, List.range_succ]
    rw [hsplit, MCrun_append, ih]
    have hfresh : ∀ p ∈ (afterSends n v).pendingClones, p.1 ≠ (afterSends n v).nextIndex := by
      intro p hp
      simp only [afterSends] at hp ⊢
      obtain ⟨i, hi, rfl⟩ := List.mem_map.mp hp
      exact Nat.ne_of_lt (List.mem_range.mp hi)
    simp only [MCrun, MCstep, MCcloneAsync, mapSet_fresh _ hfresh]
    simp [afterSends, List.range_succ]

theorem MCInv_afterSends {α : Type} (n : Nat) (v : Nat → α) :
    MCInv ((List.range n).map (fun i => (i, i, v i))) (afterSends n v) := by
  refine ⟨?_, ?_, ?_, ?_⟩
  · simp [afterSends, List.map_map, Function.comp]
  · simp [afterSends, List.map_map, Function.comp]
  · simp only [List.map_map]
    have : (Prod.fst ∘ fun i => ((i, i, v i) : Nat × Nat × α)) = id := by
      funext i; rfl
    rw [this, List.map_id]
    exact List.nodup_range n
  · intro t ht
    obtain ⟨i, hi, rfl⟩ := List.mem_map.mp ht
    simpa [afterSends] using List.mem_range.mp hi

/-! ### `PostMessageAsyncCloner`

The strategy multiplexes over the process-wide `message` event channel,
which is shared with arbitrary unrelated traffic.  JavaScript strings
are modelled as `List Char`.  The instance keeps `pendingClones :
Map<string, resolve>`, a nonce derived from a random/time seed, and a
counter; keys are the interpolation `` `${nonce}-${nextIndex++}` ``.
The listener guards: non-object or falsy event data is ignored, a falsy
key is ignored, an unknown key is ignored; a claimed message stops
propagation. -/

def mkNonce (seed : Nat) : List Char :=
  "native-clone-".toList ++ natChars seed

def mkKey (nonce : List Char) (i : Nat) : List Char :=
  nonce ++ '-' :: natChars i

theorem mkKey_injective (nonce : List Char) {i j : Nat}
    (h : mkKey nonce i = mkKey nonce j) : i = j := by
  have h1 : '-' :: natChars i = '-' :: natChars j :=
    List.append_cancel_left h
  exact natChars_injective (List.cons.inj h1).2

theorem mkKey_ne_nil (nonce : List Char) (i : Nat) : mkKey nonce i ≠ [] := by
  intro h
  have := (List.append_eq_nil.mp h).2
  exact List.cons_ne_nil _ _ this

/-- Data carried by a `message` event on the shared channel.
`notObject` is anything failing the
`typeof event.data !== 'object' || !event.data` guard (a primitive or
`null`).  `nonIterable` is a truthy object that passes that guard but
is not array-destructurable (for example a plain `{}`), on which
`const [key, value] = event.data` throws a TypeError.  `pair key value`
is destructurable data; a falsy key (the empty string, or `undefined`
destructured from an array with no first element) is modelled by the
empty character list. -/
inductive PMData (α : Type) : Type
  | notObject
  | nonIterable
  | pair (key : List Char) (value : α)

structure PMState (α : Type) where
  pendingClones : List (List Char × Nat)
  nonce : List Char
  nextIndex : Nat
  inFlight : List (List Char × α)
  resolved : List (Nat × α)
  disabled : Bool
deriving DecidableEq, Repr

def PMinit {α : Type} (nonce : List Char) : PMState α :=
  { pendingClones := []
    nonce := nonce
    nextIndex := 0
    inFlight := []
    resolved := []
    disabled := false }

/-- The `message` listener.  Returns the new state together with
whether the message was claimed (`event.stopImmediatePropagation()`
was called), or `none` when the listener throws: destructuring truthy
non-iterable event data raises a TypeError before any key is read.
Every guard failure returns the state unchanged. -/
def pmHandler {α : Type} (data : PMData α) (s : PMState α) :
    Option (PMState α × Bool) :=
  match data with
  | .notObject => some (s, false)
  | .nonIterable => none
  | .pair key value =>
    if key = [] then some (s, false)
    else
      match mapGet s.pendingClones key with
      | none => some (s, false)
      | some pid =>
        some ({ s with
                 resolved := s.resolved ++ [(pid, value)]
                 pendingClones := mapDelete s.pendingClones key }, true)

/-- `cloneAsync`: `key = `${nonce}-${nextIndex++}``, record the resolve
under `key`, `self.postMessage([key, value], '*')`. -/
def pmCloneAsync {α : Type} (pid : Nat) (value : α) (s : PMState α) : PMState α :=
  let key := mkKey s.nonce s.nextIndex
  { s with
      nextIndex := s.nextIndex + 1
      pendingClones := mapSet s.pendingClones key pid
      inFlight := s.inFlight ++ [(key, value)] }

/-- Events seen by one `PostMessageAsyncCloner` instance: a `cloneAsync`
call; the platform delivering the `message` event for a posted
`[key, value]` (with the value structured-cloned); or unrelated stray
traffic on the shared channel. -/
inductive PMEvent (α : Type) : Type
  | send (pid : Nat) (value : α)
  | echo (key : List Char)
  | stray (data : PMData α)

def pmStep {α : Type} (clone : α → α) (e : PMEvent α) (s : PMState α) :
    Option (PMState α) :=
  match e with
  | .send pid value => some (pmCloneAsync pid value s)
  | .echo key =>
    match mapGet s.inFlight key with
    | none => none
    | some value =>
      (pmHandler (.pair key (clone value))
        { s with inFlight := mapDelete s.inFlight key }).map Prod.fst
  | .stray data => (pmHandler data s).map Prod.fst

def pmRun {α : Type} (clone : α → α) (es : List (PMEvent α)) (s : PMState α) :
    Option (PMState α) :=
  match es with
  | [] => some s
  | e :: rest =>
    match pmStep clone e s with
    | none => none
    | some s' => pmRun clone rest s'

/-- A stray message is benign when its key is not currently pending
(the spec's accepted assumption that unrelated traffic and other
instances do not collide with this instance's nonce-tagged keys). -/
def strayOk {α : Type} (e : PMEvent α) (s : PMState α) : Bool :=
  match e with
  | .stray (.pair key _) => (mapGet s.pendingClones key).isNone
  | _ => true

/-- A trace is valid when every echo is of an in-flight message and
every stray message is benign at the point it arrives. -/
def pmValid {α : Type} (clone : α → α) (es : List (PMEvent α)) (s : PMState α) :
    Bool :=
  match es with
  | [] => true
  | e :: rest =>
    strayOk e s &&
      match pmStep clone e s with
      | none => false
      | some s' => pmValid clone rest s'

theorem pmRun_append {α : Type} (clone : α → α) (es₁ es₂ : List (PMEvent α))
    (s : PMState α) :
    pmRun clone (es₁ ++ es₂) s =
      match pmRun clone es₁ s with
      | none => none
      | some s' => pmRun clone es₂ s' := by
  induction es₁ generalizing s with
  | nil => simp [pmRun]
  | cons e rest ih =>
    simp only [List.cons_append, pmRun]
    cases pmStep clone e s with
    | none => rfl
    | some s' => exact ih s'

/-- Correlation invariant of a `PostMessageAsyncCloner` instance: the
pending table and the un-echoed posted messages are the two projections
of the outstanding-request list, keys are pairwise distinct, and every
outstanding key is this instance's nonce followed by a counter value
drawn below `nextIndex`. -/
def PMInv {α : Type} (pend : List (List Char × Nat × α)) (s : PMState α) : Prop :=
  s.pendingClones = pend.map (fun t => (t.1, t.2.1)) ∧
  s.inFlight = pend.map (fun t => (t.1, t.2.2)) ∧
  (pend.map Prod.fst).Nodup ∧
  (∀ t ∈ pend, ∃ i, i < s.nextIndex ∧ t.1 = mkKey s.nonce i)

theorem PMInv_send {α : Type} {pend : List (List Char × Nat × α)} {s : PMState α}
    (hinv : PMInv pend s) (pid : Nat) (value : α) :
    PMInv (pend ++ [(mkKey s.nonce s.nextIndex, pid, value)])
      (pmCloneAsync pid value s) := by
  obtain ⟨hpc, hif, hnd, hkey⟩ := hinv
  have hkeyne : ∀ t ∈ pend, t.1 ≠ mkKey s.nonce s.nextIndex := by
    intro t ht he
    obtain ⟨i, hi, hti⟩ := hkey t ht
    rw [hti] at he
    exact absurd (mkKey_injective s.nonce he) (Nat.ne_of_lt hi)
  have hfresh : ∀ p ∈ s.pendingClones, p.1 ≠ mkKey s.nonce s.nextIndex := by
    intro p hp
    rw [hpc] at hp
    obtain ⟨t, ht, rfl⟩ := List.mem_map.mp hp
    exact hkeyne t ht
  have hset : mapSet s.pendingClones (mkKey s.nonce s.nextIndex) pid =
      s.pendingClones ++ [(mkKey s.nonce s.nextIndex, pid)] := mapSet_fresh pid hfresh
  refine ⟨?_, ?_, ?_, ?_⟩
  · show mapSet s.pendingClones (mkKey s.nonce s.nextIndex) pid = _
    rw [hset, hpc, List.map_append]
    rfl
  · show s.inFlight ++ [(mkKey s.nonce s.nextIndex, value)] = _
    rw [hif, List.map_append]
    rfl
  · simp only [List.map_append, List.nodup_append, List.map_cons, List.map_nil]
    refine ⟨hnd, List.nodup_singleton _, ?_⟩
    intro k hk
    obtain ⟨t, ht, rfl⟩ := List.mem_map.mp hk
    simp only [List.mem_singleton, List.mem_cons, List.not_mem_nil, or_false]
    exact hkeyne t ht
  · intro t ht
    rcases List.mem_append.mp ht with h | h
    · obtain ⟨i, hi, hti⟩ := hkey t h
      exact ⟨i, Nat.lt_succ_of_lt hi, hti⟩
    · simp only [List.mem_singleton] at h
      subst h
      exact ⟨s.nextIndex, Nat.lt_succ_self _, rfl⟩

theorem pmStep_echo {α : Type} (clone : α → α) {pend : List (List Char × Nat × α)}
    {s : PMState α} {t : List Char × Nat × α} (hinv : PMInv pend s) (ht : t ∈ pend) :
    pmStep clone (.echo t.1) s =
      some { s with
              pendingClones :=
                (filterNe Prod.fst t.1 pend).map (fun u => (u.1, u.2.1))
              inFlight :=
                (filterNe Prod.fst t.1 pend).map (fun u => (u.1, u.2.2))
              resolved := s.resolved ++ [(t.2.1, clone t.2.2)] } := by
  obtain ⟨hpc, hif, hnd, hkey⟩ := hinv
  have hget : mapGet s.inFlight t.1 = some t.2.2 := by
    rw [hif]; exact mapGet_map_key Prod.fst (fun u => u.2.2) hnd ht
  have hgetp : mapGet s.pendingClones t.1 = some t.2.1 := by
    rw [hpc]; exact mapGet_map_key Prod.fst (fun u => u.2.1) hnd ht
  have hne : ¬(t.1 = []) := by
    obtain ⟨i, _, hti⟩ := hkey t ht
    rw [hti]
    exact mkKey_ne_nil _ _
  have hdp : mapDelete s.pendingClones t.1 =
      (filterNe Prod.fst t.1 pend).map (fun u => (u.1, u.2.1)) := by
    rw [hpc, mapDelete_map_key]
  have hdf : mapDelete s.inFlight t.1 =
      (filterNe Prod.fst t.1 pend).map (fun u => (u.1, u.2.2)) := by
    rw [hif, mapDelete_map_key]
  simp only [pmStep, hget, pmHandler, if_neg hne, hgetp, hdp, hdf, Option.map_some']

theorem PMInv_deliver {α : Type} {pend : List (List Char × Nat × α)} {s : PMState α}
    {t : List Char × Nat × α} (hinv : PMInv pend s) (clone : α → α) :
    PMInv (filterNe Prod.fst t.1 pend)
      { s with
          pendingClones :=
            (filterNe Prod.fst t.1 pend).map (fun u => (u.1, u.2.1))
          inFlight :=
            (filterNe Prod.fst t.1 pend).map (fun u => (u.1, u.2.2))
          resolved := s.resolved ++ [(t.2.1, clone t.2.2)] } := by
  obtain ⟨_, _, hnd, hkey⟩ := hinv
  refine ⟨rfl, rfl, nodup_filterNe_keys Prod.fst _ hnd, ?_⟩
  intro u hu
  exact hkey u ((filterNe_sublist Prod.fst t.1 pend).mem hu)

/-- A destructurable message whose key is not in the pending table is
ignored by the listener: no state change, no propagation stop, no
failure. -/
theorem pmHandler_ignores {α : Type} {s : PMState α} {key : List Char} (value : α)
    (h : mapGet s.pendingClones key = none) :
    pmHandler (.pair key value) s = some (s, false) := by
  by_cases hk : key = []
  · simp [pmHandler, hk]
  · simp [pmHandler, hk, h]

theorem pmHandler_notObject {α : Type} (s : PMState α) :
    pmHandler (.notObject : PMData α) s = some (s, false) := rfl

/-- Truthy non-iterable event data passes the object guard and then
throws at `const [key, value] = event.data`. -/
theorem pmHandler_nonIterable {α : Type} (s : PMState α) :
    pmHandler (.nonIterable : PMData α) s = none := rfl

/-- Echoing all outstanding requests of a `PostMessageAsyncCloner`, in
an arbitrary order, resolves every caller's promise with the structured
clone of its own argument and empties the pending table. -/
theorem pmEcho_perm {α : Type} (clone : α → α) (ks : List (List Char)) :
    ∀ (pend : List (List Char × Nat × α)) (s : PMState α), PMInv pend s →
      ks.Perm (pend.map Prod.fst) →
      ∃ s', pmRun clone (ks.map PMEvent.echo) s = some s' ∧
        s'.pendingClones = [] ∧ s'.inFlight = [] ∧
        s'.nextIndex = s.nextIndex ∧ s'.nonce = s.nonce ∧
        s'.disabled = s.disabled ∧
        ∃ l, s'.resolved = s.resolved ++ l ∧
          l.Perm (pend.map (fun t => (t.2.1, clone t.2.2))) := by
  induction ks with
  | nil =>
    intro pend s hinv hperm
    have hpend : pend = [] := List.map_eq_nil_iff.mp hperm.symm.eq_nil
    subst hpend
    obtain ⟨hpc, hif, _, _⟩ := hinv
    exact ⟨s, rfl, by simpa using hpc, by simpa using hif, rfl, rfl, rfl,
      [], by simp, by simp⟩
  | cons k ks ih =>
    intro pend s hinv hperm
    have hk : k ∈ pend.map Prod.fst :=
      hperm.mem_iff.mp (List.mem_cons_self _ _)
    obtain ⟨t, ht, htk⟩ := List.mem_map.mp hk
    subst htk
    have hstep := pmStep_echo clone hinv ht
    have hinv₁ := PMInv_deliver (t := t) hinv clone
    have hndkeys := hinv.2.2.1
    have hpermpend : pend.Perm (t :: filterNe Prod.fst t.1 pend) :=
      perm_cons_filterNe Prod.fst hndkeys ht
    have hperm₁ : ks.Perm ((filterNe Prod.fst t.1 pend).map Prod.fst) := by
      have hmap : (pend.map Prod.fst).Perm
          (t.1 :: (filterNe Prod.fst t.1 pend).map Prod.fst) := by
        simpa using hpermpend.map Prod.fst
      exact (hperm.trans hmap).cons_inv
    obtain ⟨s', hrun, hpc', hif', hni', hno', hdb', l, hres, hlperm⟩ :=
      ih _ _ hinv₁ hperm₁
    refine ⟨s', ?_, hpc', hif', hni', hno', hdb', (t.2.1, clone t.2.2) :: l, ?_, ?_⟩
    · simp only [List.map_cons, pmRun, hstep, hrun]
    · rw [hres]
      simp
    · have hmapres : (pend.map (fun t => (t.2.1, clone t.2.2))).Perm
          ((t.2.1, clone t.2.2) ::
            (filterNe Prod.fst t.1 pend).map (fun t => (t.2.1, clone t.2.2))) := by
        simpa using hpermpend.map (fun t => (t.2.1, clone t.2.2))
      exact ((hlperm.cons _).trans hmapres.symm)

/-- States reachable from a fresh `PostMessageAsyncCloner` instance
along valid traces. -/
def PMReachP {α : Type} (s : PMState α) : Prop :=
  (∃ pend, PMInv pend s) ∧ s.disabled = false

theorem PMReachP_init {α : Type} (nonce : List Char) :
    PMReachP (PMinit (α := α) nonce) :=
  ⟨⟨[], rfl, rfl, List.nodup_nil, by simp⟩, rfl⟩

theorem pmRun_reach {α : Type} (clone : α → α) (es : List (PMEvent α)) :
    ∀ {s s' : PMState α}, PMReachP s → pmValid clone es s = true →
      pmRun clone es s = some s' → PMReachP s' := by
  induction es with
  | nil =>
    intro s s' h _ hrun
    simp only [pmRun, Option.some.injEq] at hrun
    exact hrun ▸ h
  | cons e rest ih =>
    intro s s' h hvalid hrun
    obtain ⟨⟨pend, hinv⟩, hdisabled⟩ := h
    simp only [pmValid, Bool.and_eq_true] at hvalid
    obtain ⟨hstray, hvalid⟩ := hvalid
    simp only [pmRun] at hrun
    cases hstep0 : pmStep clone e s with
    | none =>
      rw [hstep0] at hvalid
      exact absurd hvalid (by simp)
    | some s₁ =>
      rw [hstep0] at hvalid hrun
      cases e with
      | send pid value =>
        have hs₁ : s₁ = pmCloneAsync pid value s := (Option.some.inj hstep0).symm
        refine ih ⟨⟨pend ++ [(mkKey s.nonce s.nextIndex, pid, value)], ?_⟩, ?_⟩
          hvalid hrun
        · rw [hs₁]
          exact PMInv_send hinv pid value
        · rw [hs₁]
          exact hdisabled
      | echo k =>
        have hstep1 := hstep0
        simp only [pmStep] at hstep1
        cases hflight : mapGet s.inFlight k with
        | none => rw [hflight] at hstep1; exact absurd hstep1 (by simp)
        | some v =>
          have hmem : (k, v) ∈ s.inFlight := mapGet_eq_some_mem hflight
          rw [hinv.2.1] at hmem
          obtain ⟨t, ht, hteq⟩ := List.mem_map.mp hmem
          have ht1 : t.1 = k := congrArg Prod.fst hteq
          subst ht1
          have hstep := pmStep_echo clone hinv ht
          have hs₁ := Option.some.inj (hstep0.symm.trans hstep)
          refine ih ⟨⟨filterNe Prod.fst t.1 pend, ?_⟩, ?_⟩ hvalid hrun
          · rw [hs₁]
            exact PMInv_deliver hinv clone
          · rw [hs₁]
            exact hdisabled
      | stray data =>
        have hs₁ : s₁ = s := by
          cases data with
          | notObject =>
            have hid : pmStep clone (.stray (.notObject : PMData α)) s = some s := by
              simp [pmStep, pmHandler_notObject]
            exact Option.some.inj (hstep0.symm.trans hid)
          | nonIterable =>
            have hid : pmStep clone (.stray (.nonIterable : PMData α)) s = none := by
              simp [pmStep, pmHandler_nonIterable]
            exact absurd (hid.symm.trans hstep0) (by simp)
          | pair key value =>
            simp only [strayOk, Option.isNone_iff_eq_none] at hstray
            have hid : pmStep clone (.stray (.pair key value)) s = some s := by
              simp [pmStep, pmHandler_ignores value hstray]
            exact Option.some.inj (hstep0.symm.trans hid)
        refine ih ⟨⟨pend, ?_⟩, ?_⟩ hvalid hrun
        · rw [hs₁]; exact hinv
        · rw [hs₁]; exact hdisabled

/-- The trace of `n` concurrent `cloneAsync` calls on a
`PostMessageAsyncCloner` instance. -/
def pmSendEvents {α : Type} (n : Nat) (v : Nat → α) : List (PMEvent α) :=
  (List.range n).map (fun i => .send i (v i))

def pmAfterSends {α : Type} (nonce : List Char) (n : Nat) (v : Nat → α) :
    PMState α :=
  { pendingClones := (List.range n).map (fun i => (mkKey nonce i, i))
    nonce := nonce
    nextIndex := n
    inFlight := (List.range n).map (fun i => (mkKey nonce i, v i))
    resolved := []
    disabled := false }

theorem pmRun_sendEvents {α : Type} (clone : α → α) (nonce : List Char) (n : Nat)
    (v : Nat → α) :
    pmRun clone (pmSendEvents n v) (PMinit nonce) = some (pmAfterSends nonce n v) := by
  induction n with
  | zero => rfl
  | succ n ih =>
    have hsplit : pmSendEvents (n + 1) v =
        pmSendEvents n v ++ [.send n (v n)] := by
      simp [pmSendEvents, List.range_succ]
    rw [hsplit, pmRun_append, ih]
    have hfresh : ∀ p ∈ (List.range n).map (fun i => ((mkKey nonce i, i) : List Char × Nat)),
        p.1 ≠ mkKey nonce n := by
      intro p hp
      obtain ⟨i, hi, rfl⟩ := List.mem_map.mp hp
      intro he
      exact absurd (mkKey_injective nonce he) (Nat.ne_of_lt (List.mem_range.mp hi))
    simp only [pmRun, pmStep, pmCloneAsync, pmAfterSends, mapSet_fresh _ hfresh]
    simp [List.range_succ]

theorem PMInv_pmAfterSends {α : Type} (nonce : List Char) (n : Nat) (v : Nat → α) :
    PMInv ((List.range n).map (fun i => (mkKey nonce i, i, v i)))
      (pmAfterSends nonce n v) := by
  refine ⟨?_, ?_, ?_, ?_⟩
  · simp [pmAfterSends, List.map_map, Function.comp]
  · simp [pmAfterSends, List.map_map, Function.comp]
  · simp only [List.map_map]
    have heq : (Prod.fst ∘ fun i => ((mkKey nonce i, i, v i) : List Char × Nat × α)) =
        fun i => mkKey nonce i := by
      funext i; rfl
    rw [heq]
    have hinj : Function.Injective (fun i => mkKey nonce i) := by
      intro i j hij
      exact mkKey_injective nonce hij
    exact (List.nodup_range n).map hinj
  · intro t ht
    obtain ⟨i, hi, rfl⟩ := List.mem_map.mp ht
    exact ⟨i, by simpa [pmAfterSends] using List.mem_range.mp hi, rfl⟩

/-! ### `IndexedDBAsyncCloner`

The database is modelled as its committed object stores: a map from
store name to store contents (a map from record key to record).
`objectStoreNames` is the name column of that map.  The constructor's
`onupgradeneeded` handler deletes every existing object store and then
creates `'cloning'`; the platform fires it while opening a database
that does not yet exist (version-1 open of a fresh database), and an
existing version-1 database is returned without upgrade.  `cloneAsync`
awaits the opened database, then inside one `readwrite` transaction
adds the value at key 1, reads key 1 back, resolves with the read-back
record, and aborts the transaction.  The platform's structured clone
applied when a record is written or read is the abstract `clone`. -/

structure IDB (α : Type) where
  stores : List (String × List (Nat × α))
deriving DecidableEq, Repr

def IDB.objectStoreNames {α : Type} (db : IDB α) : List String :=
  db.stores.map Prod.fst

def deleteObjectStore {α : Type} (db : IDB α) (name : String) : IDB α :=
  ⟨mapDelete db.stores name⟩

def createObjectStore {α : Type} (db : IDB α) (name : String) : IDB α :=
  ⟨db.stores ++ [(name, [])]⟩

/-- The `request.onupgradeneeded` handler: delete every store listed in
`db.objectStoreNames`, then create the `'cloning'` store. -/
def onupgradeneeded {α : Type} (db : IDB α) : IDB α :=
  createObjectStore (db.objectStoreNames.foldl deleteObjectStore db) "cloning"

/-- `indexedDB.open(dbName, 1)`: when no database exists yet it is
created empty and the upgrade handler runs; an existing version-1
database is opened as is. -/
def indexedDBopen {α : Type} (prior : Option (IDB α)) : IDB α :=
  match prior with
  | none => onupgradeneeded ⟨[]⟩
  | some db => db

/-- `transaction.abort()`: every write performed inside the transaction
is discarded; the committed database is unchanged. -/
def transactionAbort {α : Type} (db : IDB α) (_txStore : List (Nat × α)) : IDB α :=
  db

/-- One `cloneAsync` round trip on the opened database: `add(value, 1)`
(failing on a pre-existing key), `get(1)` (returning a structured clone
of the stored record, or `none` when absent), resolve with the read
result, abort.  Returns the committed database after the call together
with the promise outcome. -/
def idbCloneAsync {α : Type} (clone : α → α) (db : IDB α) (value : α) :
    IDB α × Except String (Option α) :=
  match mapGet db.stores "cloning" with
  | none => (db, .error "NotFoundError")
  | some contents =>
    match mapGet contents 1 with
    | some _ => (db, .error "ConstraintError")
    | none =>
      let txStore := mapSet contents 1 (clone value)
      let result := (mapGet txStore 1).map clone
      (transactionAbort db txStore, .ok result)

/-- The `IndexedDBAsyncCloner` instance: `dbReady` holds the awaited
database, `disabled` is the inherited `StructuredCloner` field. -/
structure IDBClonerState (α : Type) where
  dbReady : IDB α
  disabled : Bool
deriving DecidableEq, Repr

def IDBClonerConstruct {α : Type} (prior : Option (IDB α)) : IDBClonerState α :=
  { dbReady := indexedDBopen prior
    disabled := false }

def IDBClonerCloneAsync {α : Type} (clone : α → α) (st : IDBClonerState α)
    (value : α) : IDBClonerState α × Except String (Option α) :=
  let db := st.dbReady
  let r := idbCloneAsync clone db value
  ({ st with dbReady := r.1 }, r.2)

theorem foldl_deleteObjectStore {α : Type} (ns : List String) :
    ∀ db : IDB α, (∀ p ∈ db.stores, p.1 ∈ ns) →
      (ns.foldl deleteObjectStore db).stores = [] := by
  induction ns with
  | nil =>
    intro db h
    simp only [List.foldl_nil]
    cases hdb : db.stores with
    | nil => rfl
    | cons p rest =>
      exact absurd (h p (hdb ▸ List.mem_cons_self _ _)) (List.not_mem_nil _)
  | cons n ns ih =>
    intro db h
    simp only [List.foldl_cons]
    apply ih
    intro p hp
    have hmem := mem_mapDelete hp
    rcases List.mem_cons.mp (h p hmem.1) with he | he
    · exact absurd he hmem.2
    · exact he

/-- Whatever schema the database carries when the upgrade handler runs,
the handler leaves exactly one store, `'cloning'`, and it is empty. -/
theorem onupgradeneeded_empties {α : Type} (db : IDB α) :
    onupgradeneeded db = ⟨[("cloning", [])]⟩ := by
  have h := foldl_deleteObjectStore (α := α) db.objectStoreNames db
    (fun p hp => List.mem_map.mpr ⟨p, hp, rfl⟩)
  simp only [onupgradeneeded, createObjectStore]
  rw [h]
  rfl

/-! ### Helper lemmas for the claim theorems -/

theorem mapGet_mapSet_self {κ β : Type} [DecidableEq κ] (m : List (κ × β)) (k : κ)
    (v : β) : mapGet (mapSet m k v) k = some v := by
  induction m with
  | nil => simp [mapSet, mapGet]
  | cons p rest ih =>
    by_cases h : p.1 = k
    · simp [mapSet, mapGet, h]
    · simp only [mapSet, if_neg h, mapGet, ih]

/-- Looking a promise id up in a resolution list that is a permutation
of `(i, f i)` for `i < n`. -/
theorem mapGet_of_perm_range {α : Type} {l : List (Nat × α)} {n : Nat} {f : Nat → α}
    (hperm : l.Perm ((List.range n).map (fun i => (i, f i)))) {i : Nat} (hi : i < n) :
    mapGet l i = some (f i) := by
  have hnd : (l.map Prod.fst).Nodup := by
    rw [(hperm.map Prod.fst).nodup_iff]
    simp only [List.map_map]
    have heq : (Prod.fst ∘ fun i => ((i, f i) : Nat × α)) = id := by
      funext j; rfl
    rw [heq, List.map_id]
    exact List.nodup_range n
  exact mapGet_mem hnd
    (hperm.mem_iff.mpr (List.mem_map.mpr ⟨i, List.mem_range.mpr hi, rfl⟩))

/-- A successful delivery step of the channel cloner removes exactly the
delivered key from the pending table (and the message from the
channel). -/
theorem MCstep_deliver_removes {α : Type} (clone : α → α) (k : Nat)
    {s s' : MCState α} (h : MCstep clone (.deliver k) s = some s') :
    s'.pendingClones = mapDelete s.pendingClones k ∧
    mapGet s'.pendingClones k = none ∧
    s'.inFlight = mapDelete s.inFlight k := by
  simp only [MCstep] at h
  cases hflight : mapGet s.inFlight k with
  | none => rw [hflight] at h; exact absurd h (by simp)
  | some v =>
    rw [hflight] at h
    simp only [MConmessage] at h
    cases hget : mapGet s.pendingClones k with
    | none => rw [hget] at h; exact absurd h (by simp)
    | some pid =>
      rw [hget] at h
      have hs' := (Option.some.inj h).symm
      rw [hs']
      exact ⟨rfl, mapGet_mapDelete_self _ _, rfl⟩

/-- The base-class `onmessage` of `MessageChannelAsyncCloner`, on a key
that has an entry, resolves that entry's promise and deletes the entry. -/
theorem MConmessage_match {α : Type} {s : MCState α} {k pid : Nat} (value : α)
    (h : mapGet s.pendingClones k = some pid) :
    MConmessage k value s =
      some { s with
              resolved := s.resolved ++ [(pid, value)]
              pendingClones := mapDelete s.pendingClones k } := by
  simp only [MConmessage, h]

theorem MConmessage_unknown {α : Type} {s : MCState α} {k : Nat} (value : α)
    (h : mapGet s.pendingClones k = none) :
    MConmessage k value s = none := by
  simp only [MConmessage, h]

/-- The `postMessage` listener, on a truthy key that has an entry,
resolves that entry's promise, deletes the entry, and stops further
propagation of the claimed event. -/
theorem pmHandler_match {α : Type} {s : PMState α} {k : List Char} {pid : Nat}
    (value : α) (hk : k ≠ []) (h : mapGet s.pendingClones k = some pid) :
    pmHandler (.pair k value) s =
      some ({ s with
               resolved := s.resolved ++ [(pid, value)]
               pendingClones := mapDelete s.pendingClones k }, true) := by
  simp only [pmHandler, if_neg hk, h]

theorem MCstep_disabled {α : Type} (clone : α → α) (e : MCEvent α)
    {s s' : MCState α} (h : MCstep clone e s = some s') :
    s'.disabled = s.disabled := by
  cases e with
  | send pid value =>
    simp only [MCstep, Option.some.injEq] at h
    rw [← h]
    rfl
  | deliver k =>
    simp only [MCstep] at h
    cases hflight : mapGet s.inFlight k with
    | none => rw [hflight] at h; exact absurd h (by simp)
    | some v =>
      rw [hflight] at h
      simp only [MConmessage] at h
      cases hget : mapGet s.pendingClones k with
      | none => rw [hget] at h; exact absurd h (by simp)
      | some pid =>
        rw [hget] at h
        rw [← Option.some.inj h]

theorem pmHandler_disabled {α : Type} (data : PMData α) (s : PMState α) :
    ∀ r, pmHandler data s = some r → r.1.disabled = s.disabled := by
  intro r h
  cases data with
  | notObject =>
    rw [← Option.some.inj h]
  | nonIterable =>
    exact absurd h (by simp [pmHandler])
  | pair key value =>
    by_cases hk : key = []
    · simp only [pmHandler, if_pos hk, Option.some.injEq] at h
      rw [← h]
    · simp only [pmHandler, if_neg hk] at h
      cases hget : mapGet s.pendingClones key with
      | none =>
        rw [hget, Option.some.injEq] at h
        rw [← h]
      | some pid =>
        rw [hget, Option.some.injEq] at h
        rw [← h]

theorem pmStep_disabled {α : Type} (clone : α → α) (e : PMEvent α)
    {s s' : PMState α} (h : pmStep clone e s = some s') :
    s'.disabled = s.disabled := by
  cases e with
  | send pid value =>
    simp only [pmStep, Option.some.injEq] at h
    rw [← h]
    rfl
  | echo k =>
    simp only [pmStep] at h
    cases hflight : mapGet s.inFlight k with
    | none => rw [hflight] at h; exact absurd h (by simp)
    | some v =>
      rw [hflight] at h
      obtain ⟨r, hr, hr1⟩ := Option.map_eq_some'.mp h
      rw [← hr1]
      exact (pmHandler_disabled _ _ r hr).trans rfl
  | stray data =>
    simp only [pmStep] at h
    obtain ⟨r, hr, hr1⟩ := Option.map_eq_some'.mp h
    rw [← hr1]
    exact pmHandler_disabled _ _ r hr

theorem pmRun_disabled {α : Type} (clone : α → α) (es : List (PMEvent α)) :
    ∀ {s s' : PMState α}, pmRun clone es s = some s' → s'.disabled = s.disabled := by
  induction es with
  | nil =>
    intro s s' h
    simp only [pmRun, Option.some.injEq] at h
    rw [← h]
  | cons e rest ih =>
    intro s s' h
    simp only [pmRun] at h
    cases hstep : pmStep clone e s with
    | none => rw [hstep] at h; exact absurd h (by simp)
    | some s₁ =>
      rw [hstep] at h
      rw [ih h]
      exact pmStep_disabled clone e hstep

theorem MCrun_disabled {α : Type} (clone : α → α) (es : List (MCEvent α)) :
    ∀ {s s' : MCState α}, MCrun clone es s = some s' → s'.disabled = s.disabled := by
  induction es with
  | nil =>
    intro s s' h
    simp only [MCrun, Option.some.injEq] at h
    rw [← h]
  | cons e rest ih =>
    intro s s' h
    simp only [MCrun] at h
    cases hstep : MCstep clone e s with
    | none => rw [hstep] at h; exact absurd h (by simp)
    | some s₁ =>
      rw [hstep] at h
      rw [ih h]
      exact MCstep_disabled clone e hstep

/-! ### Claim theorems -/

/-- C1: For every strategy instance that correlates requests by key
(the `MessageChannel` instance and the `postMessage` multiplexer),
issuing `n` concurrent `cloneAsync` calls by callers `0 .. n-1` with
values `v 0 .. v (n-1)` and then letting the channel deliver the `n`
replies in an arbitrary order (any permutation `ks` of the send order)
resolves each caller's promise with exactly the structured clone of its
own argument, and exactly once: matching is by key, never by send
order. -/
theorem C1_correlation_matches_by_key {α : Type} (clone : α → α) (n : Nat)
    (v : Nat → α) (ks : List Nat) (nonce : List Char)
    (hks : ks.Perm (List.range n)) :
    (∃ s', MCrun clone (sendEvents n v ++ ks.map MCEvent.deliver) MCinit = some s' ∧
      s'.pendingClones = [] ∧ s'.resolved.length = n ∧
      ∀ i, i < n → mapGet s'.resolved i = some (clone (v i))) ∧
    (∃ s', pmRun clone
        (pmSendEvents n v ++ ks.map (fun k => PMEvent.echo (mkKey nonce k)))
        (PMinit nonce) = some s' ∧
      s'.pendingClones = [] ∧ s'.resolved.length = n ∧
      ∀ i, i < n → mapGet s'.resolved i = some (clone (v i))) := by
  constructor
  · have hinv := MCInv_afterSends n v
    have hmapeq : ((List.range n).map
        (fun i => ((i, i, v i) : Nat × Nat × α))).map Prod.fst = List.range n := by
      rw [List.map_map]
      exact List.map_id _
    have hperm' : ks.Perm
        (((List.range n).map (fun i => ((i, i, v i) : Nat × Nat × α))).map Prod.fst) := by
      rw [hmapeq]
      exact hks
    obtain ⟨s', hrun, hpc, hif, hni, has, hdb, l, hres, hlperm⟩ :=
      MCdeliver_perm clone ks _ _ hinv hperm'
    have hresl : s'.resolved = l := by
      rw [hres]
      simp [afterSends]
    refine ⟨s', ?_, hpc, ?_, ?_⟩
    · rw [MCrun_append, MCrun_sendEvents]
      exact hrun
    · rw [hresl, hlperm.length_eq]
      simp
    · intro i hi
      rw [hresl]
      refine mapGet_of_perm_range (n := n) (f := fun i => clone (v i)) ?_ hi
      have hpe : ((List.range n).map (fun i => ((i, i, v i) : Nat × Nat × α))).map
          (fun t => (t.2.1, clone t.2.2)) =
          (List.range n).map (fun i => (i, clone (v i))) := by
        rw [List.map_map]
        rfl
      rw [← hpe]
      exact hlperm
  · have hinv := PMInv_pmAfterSends nonce n v
    have hmapeq : ((List.range n).map
        (fun i => ((mkKey nonce i, i, v i) : List Char × Nat × α))).map Prod.fst =
        (List.range n).map (mkKey nonce) := by
      rw [List.map_map]
      rfl
    have hperm' : (ks.map (mkKey nonce)).Perm
        (((List.range n).map
          (fun i => ((mkKey nonce i, i, v i) : List Char × Nat × α))).map Prod.fst) := by
      rw [hmapeq]
      exact hks.map (mkKey nonce)
    obtain ⟨s', hrun, hpc, hif, hni, hno, hdb, l, hres, hlperm⟩ :=
      pmEcho_perm clone (ks.map (mkKey nonce)) _ _ hinv hperm'
    have hresl : s'.resolved = l := by
      rw [hres]
      simp [pmAfterSends]
    refine ⟨s', ?_, hpc, ?_, ?_⟩
    · rw [pmRun_append, pmRun_sendEvents]
      have hev : (ks.map (mkKey nonce)).map (PMEvent.echo (α := α)) =
          ks.map (fun k => PMEvent.echo (α := α) (mkKey nonce k)) := by
        rw [List.map_map]
        rfl
      rw [← hev]
      exact hrun
    · rw [hresl, hlperm.length_eq]
      simp
    · intro i hi
      rw [hresl]
      refine mapGet_of_perm_range (n := n) (f := fun i => clone (v i)) ?_ hi
      have hpe : ((List.range n).map
          (fun i => ((mkKey nonce i, i, v i) : List Char × Nat × α))).map
          (fun t => (t.2.1, clone t.2.2)) =
          (List.range n).map (fun i => (i, clone (v i))) := by
        rw [List.map_map]
        rfl
      rw [← hpe]
      exact hlperm

/-- Witness for C1 at `n = 3`, `v = (10, 20, 30)`, delivery order
`2, 0, 1`, doubling as the structured clone. -/
theorem C1_witness :
    ([2, 0, 1] : List Nat).Perm (List.range 3) ∧
    ((∃ s', MCrun (fun x => 2 * x) (sendEvents 3 (fun i => 10 * (i + 1)) ++
        ([2, 0, 1].map MCEvent.deliver)) MCinit = some s' ∧
      s'.pendingClones = [] ∧ s'.resolved.length = 3 ∧
      ∀ i, i < 3 → mapGet s'.resolved i = some (2 * (10 * (i + 1)))) ∧
    (∃ s', pmRun (fun x => 2 * x)
        (pmSendEvents 3 (fun i => 10 * (i + 1)) ++
          [2, 0, 1].map (fun k => PMEvent.echo (mkKey ['x'] k)))
        (PMinit ['x']) = some s' ∧
      s'.pendingClones = [] ∧ s'.resolved.length = 3 ∧
      ∀ i, i < 3 → mapGet s'.resolved i = some (2 * (10 * (i + 1))))) :=
  ⟨by decide,
   C1_correlation_matches_by_key (fun x => 2 * x) 3 (fun i => 10 * (i + 1))
     [2, 0, 1] ['x'] (by decide)⟩

/-- C2: When every registered strategy's capability probe returns
false, the facade — which selects from the registered
`clonerFactories` in priority order — fails both `cloneSync` and
`cloneAsync` with the distinct "no native implementation" error
(`cloneAsync`'s fallback wrap of `cloneSync` fails with the same error
rather than degrading to a non-native clone), and `canCloneSync` /
`canCloneAsync` both return false. -/
theorem C2_no_native_implementation {α : Type} (v8clone : α → α)
    (cloneAsyncOf : ClonerClass → α → Except String α)
    (probes : ClonerClass → Bool) (h : ∀ c, probes c = false) (value : α) :
    facadeCloneSync v8clone probes value = .error "no native implementation" ∧
    facadeCloneAsync v8clone cloneAsyncOf probes value =
      .error "no native implementation" ∧
    canCloneSync probes = false ∧
    canCloneAsync probes = false := by
  have hasync : selectAsyncCloner probes = none := by
    rw [selectAsyncCloner, List.find?_eq_none]
    intro c _
    simp [h c]
  have hsync : selectSyncCloner probes = none := by
    rw [selectSyncCloner, List.find?_eq_none]
    intro c _
    simp [h c]
  refine ⟨?_, ?_, ?_, ?_⟩
  · simp [facadeCloneSync, hsync]
  · simp [facadeCloneAsync, hasync, facadeCloneSync, hsync]
  · simp [canCloneSync, hsync]
  · simp [canCloneAsync, hasync]

/-- Witness for C2: every probe forced false, cloning the value `0`
over the registered four-strategy registry. -/
theorem C2_witness :
    facadeCloneSync (fun x : Nat => x) (fun _ => false) 0 =
      .error "no native implementation" ∧
    facadeCloneAsync (fun x : Nat => x) (fun _ v => .ok v) (fun _ => false) 0 =
      .error "no native implementation" ∧
    canCloneSync (fun _ => false) = false ∧
    canCloneAsync (fun _ => false) = false :=
  C2_no_native_implementation (fun x => x) (fun _ v => .ok v) (fun _ => false)
    (fun _ => rfl) 0

/-- C3: For both correlated strategies, a key is in the pending table
exactly while its request is in flight: the table and the in-flight
message list carry the same keys, the table's size equals the number of
in-flight requests in every reachable state, the table is empty once
every issued request has completed, the key is present from the moment
`cloneAsync` sends (the just-sent key maps to the caller's resolve),
and handling a matching reply removes the entry immediately. -/
theorem C3_pending_table_invariant {α : Type} (clone : α → α) :
    (∀ (es : List (MCEvent α)) (s : MCState α), MCrun clone es MCinit = some s →
       s.pendingClones.map Prod.fst = s.inFlight.map Prod.fst ∧
       s.pendingClones.length = s.inFlight.length ∧
       (s.inFlight = [] → s.pendingClones = [])) ∧
    (∀ (pid : Nat) (value : α) (s : MCState α),
       mapGet (MCcloneAsync pid value s).pendingClones s.nextIndex = some pid) ∧
    (∀ (k : Nat) (s s' : MCState α), MCstep clone (.deliver k) s = some s' →
       s'.pendingClones = mapDelete s.pendingClones k ∧
       mapGet s'.pendingClones k = none) ∧
    (∀ (nonce : List Char) (es : List (PMEvent α)) (s : PMState α),
       pmValid clone es (PMinit nonce) = true →
       pmRun clone es (PMinit nonce) = some s →
       s.pendingClones.map Prod.fst = s.inFlight.map Prod.fst ∧
       s.pendingClones.length = s.inFlight.length ∧
       (s.inFlight = [] → s.pendingClones = [])) ∧
    (∀ (pid : Nat) (value : α) (s : PMState α),
       mapGet (pmCloneAsync pid value s).pendingClones (mkKey s.nonce s.nextIndex) =
         some pid) ∧
    (∀ (k : List Char) (pid : Nat) (value : α) (s : PMState α), k ≠ [] →
       mapGet s.pendingClones k = some pid →
       pmHandler (.pair k value) s =
         some ({ s with
                  resolved := s.resolved ++ [(pid, value)]
                  pendingClones := mapDelete s.pendingClones k }, true) ∧
       mapGet (mapDelete s.pendingClones k) k = none) := by
  refine ⟨?_, ?_, ?_, ?_, ?_, ?_⟩
  · intro es s hrun
    obtain ⟨⟨pend, hpc, hif, _, _⟩, _, _⟩ := MCrun_reach clone es MCReachInv_init hrun
    refine ⟨?_, ?_, ?_⟩
    · rw [hpc, hif, List.map_map, List.map_map]
      rfl
    · rw [hpc, hif]
      simp [List.length_map]
    · intro hempty
      rw [hif] at hempty
      rw [hpc, List.map_eq_nil_iff.mp hempty]
      rfl
  · intro pid value s
    exact mapGet_mapSet_self _ _ _
  · intro k s s' hstep
    exact ⟨(MCstep_deliver_removes clone k hstep).1,
      (MCstep_deliver_removes clone k hstep).2.1⟩
  · intro nonce es s hvalid hrun
    obtain ⟨⟨pend, hpc, hif, _, _⟩, _⟩ :=
      pmRun_reach clone es (PMReachP_init nonce) hvalid hrun
    refine ⟨?_, ?_, ?_⟩
    · rw [hpc, hif, List.map_map, List.map_map]
      rfl
    · rw [hpc, hif]
      simp [List.length_map]
    · intro hempty
      rw [hif] at hempty
      rw [hpc, List.map_eq_nil_iff.mp hempty]
      rfl
  · intro pid value s
    exact mapGet_mapSet_self _ _ _
  · intro k pid value s hk hget
    exact ⟨pmHandler_match value hk hget, mapGet_mapDelete_self _ _⟩

/-- The `MessageChannelAsyncCloner` state after `cloneAsync(5)` by
caller 0 followed by delivery of the reply (identity structured
clone). -/
def mcWitnessState : MCState Nat :=
  { pendingClones := []
    nextIndex := 1
    inFlight := []
    resolved := [(0, 5)]
    assigned := [0]
    disabled := false }

/-- The same state before the delivery. -/
def mcMidState : MCState Nat :=
  { pendingClones := [(0, 0)]
    nextIndex := 1
    inFlight := [(0, 5)]
    resolved := []
    assigned := [0]
    disabled := false }

def pmWitnessEvents : List (PMEvent Nat) :=
  [.send 0 5, .echo ['x', '-', '0']]

/-- The `postMessage` multiplexer state (nonce `"x"`) after
`cloneAsync(5)` by caller 0 followed by the echo of its message. -/
def pmWitnessState : PMState Nat :=
  { pendingClones := []
    nonce := ['x']
    nextIndex := 1
    inFlight := []
    resolved := [(0, 5)]
    disabled := false }

/-- The same state before the echo. -/
def pmMidState : PMState Nat :=
  { pendingClones := [(['x', '-', '0'], 0)]
    nonce := ['x']
    nextIndex := 1
    inFlight := [(['x', '-', '0'], 5)]
    resolved := []
    disabled := false }

/-- Witness for C3 on one-request traces of both multiplexers. -/
theorem C3_witness :
    MCrun (fun x : Nat => x) [MCEvent.send 0 5, MCEvent.deliver 0] MCinit =
      some mcWitnessState ∧
    mcWitnessState.pendingClones.map Prod.fst =
      mcWitnessState.inFlight.map Prod.fst ∧
    mcWitnessState.pendingClones.length = mcWitnessState.inFlight.length ∧
    mapGet (MCcloneAsync 0 (5 : Nat) MCinit).pendingClones 0 = some 0 ∧
    MCstep (fun x : Nat => x) (.deliver 0) mcMidState = some mcWitnessState ∧
    mcWitnessState.pendingClones = mapDelete mcMidState.pendingClones 0 ∧
    pmValid (fun x : Nat => x) pmWitnessEvents (PMinit ['x']) = true ∧
    pmRun (fun x : Nat => x) pmWitnessEvents (PMinit ['x']) = some pmWitnessState ∧
    pmWitnessState.pendingClones.length = pmWitnessState.inFlight.length ∧
    mapGet (pmCloneAsync 0 (5 : Nat) (PMinit ['x'])).pendingClones
      (mkKey ['x'] 0) = some 0 ∧
    pmHandler (.pair ['x', '-', '0'] (5 : Nat)) pmMidState =
      some ({ pmMidState with
               resolved := pmMidState.resolved ++ [(0, 5)]
               pendingClones := mapDelete pmMidState.pendingClones ['x', '-', '0'] },
            true) := by
  have h := C3_pending_table_invariant (α := Nat) (fun x => x)
  have hrun : MCrun (fun x : Nat => x) [MCEvent.send 0 5, MCEvent.deliver 0] MCinit =
      some mcWitnessState := by decide
  have hmc := h.1 [MCEvent.send 0 5, MCEvent.deliver 0] mcWitnessState hrun
  have hstep : MCstep (fun x : Nat => x) (.deliver 0) mcMidState =
      some mcWitnessState := by decide
  have hdel := h.2.2.1 0 mcMidState mcWitnessState hstep
  have hpmvalid : pmValid (fun x : Nat => x) pmWitnessEvents (PMinit ['x']) = true := by
    decide
  have hpmrun : pmRun (fun x : Nat => x) pmWitnessEvents (PMinit ['x']) =
      some pmWitnessState := by decide
  have hpm := h.2.2.2.1 ['x'] pmWitnessEvents pmWitnessState hpmvalid hpmrun
  have hpmh := h.2.2.2.2.2 ['x', '-', '0'] 0 (5 : Nat) pmMidState (by decide) (by decide)
  exact ⟨hrun, hmc.1, hmc.2.1, h.2.1 0 5 MCinit, hstep, hdel.1, hpmvalid, hpmrun,
    hpm.2.1, h.2.2.2.2.1 0 5 (PMinit ['x']), hpmh.1⟩

/-- C4: In every reachable state of either correlated strategy, the
outstanding requests carry pairwise distinct keys — the
exclusive-channel counter scheme and the shared-channel
nonce-plus-counter scheme both never reuse a key while an entry for it
is still pending. -/
theorem C4_outstanding_keys_distinct {α : Type} (clone : α → α) :
    (∀ (es : List (MCEvent α)) (s : MCState α), MCrun clone es MCinit = some s →
       (s.pendingClones.map Prod.fst).Nodup) ∧
    (∀ (nonce : List Char) (es : List (PMEvent α)) (s : PMState α),
       pmValid clone es (PMinit nonce) = true →
       pmRun clone es (PMinit nonce) = some s →
       (s.pendingClones.map Prod.fst).Nodup) := by
  constructor
  · intro es s hrun
    obtain ⟨⟨pend, hpc, _, hnd, _⟩, _, _⟩ := MCrun_reach clone es MCReachInv_init hrun
    rw [hpc, List.map_map]
    exact hnd
  · intro nonce es s hvalid hrun
    obtain ⟨⟨pend, hpc, _, hnd, _⟩, _⟩ :=
      pmRun_reach clone es (PMReachP_init nonce) hvalid hrun
    rw [hpc, List.map_map]
    exact hnd

/-- Witness for C4 on two-request traces of both multiplexers. -/
theorem C4_witness :
    MCrun (fun x : Nat => x) [MCEvent.send 0 5, MCEvent.send 1 7]
        MCinit = some
        { pendingClones := [(0, 0), (1, 1)], nextIndex := 2,
          inFlight := [(0, 5), (1, 7)], resolved := [], assigned := [0, 1],
          disabled := false } ∧
    ([((0 : Nat), (0 : Nat)), (1, 1)].map Prod.fst).Nodup ∧
    pmValid (fun x : Nat => x) [PMEvent.send 0 5, PMEvent.send 1 7]
      (PMinit ['x']) = true ∧
    pmRun (fun x : Nat => x) [PMEvent.send 0 5, PMEvent.send 1 7]
        (PMinit ['x']) = some
        { pendingClones := [(['x', '-', '0'], 0), (['x', '-', '1'], 1)]
          nonce := ['x'], nextIndex := 2
          inFlight := [(['x', '-', '0'], 5), (['x', '-', '1'], 7)]
          resolved := [], disabled := false } ∧
    ([(['x', '-', '0'], (0 : Nat)), (['x', '-', '1'], 1)].map Prod.fst).Nodup := by
  have h := C4_outstanding_keys_distinct (α := Nat) (fun x => x)
  have hrun : MCrun (fun x : Nat => x) [MCEvent.send 0 5, MCEvent.send 1 7]
      MCinit = some
      { pendingClones := [(0, 0), (1, 1)], nextIndex := 2,
        inFlight := [(0, 5), (1, 7)], resolved := [], assigned := [0, 1],
        disabled := false } := by decide
  have hpmvalid : pmValid (fun x : Nat => x) [PMEvent.send 0 5, PMEvent.send 1 7]
      (PMinit ['x']) = true := by decide
  have hpmrun : pmRun (fun x : Nat => x) [PMEvent.send 0 5, PMEvent.send 1 7]
      (PMinit ['x']) = some
      { pendingClones := [(['x', '-', '0'], 0), (['x', '-', '1'], 1)]
        nonce := ['x'], nextIndex := 2
        inFlight := [(['x', '-', '0'], 5), (['x', '-', '1'], 7)]
        resolved := [], disabled := false } := by decide
  refine ⟨hrun, ?_, hpmvalid, hpmrun, ?_⟩
  · exact h.1 [MCEvent.send 0 5, MCEvent.send 1 7] _ hrun
  · exact h.2 ['x'] [PMEvent.send 0 5, PMEvent.send 1 7] _ hpmvalid hpmrun

/-- C5 counterexample: the claim asserts, of every correlated
strategy's delivery handler, that an inbound message whose key has no
entry in the pending-request table is ignored without failing.  Both
handlers falsify it on concrete inputs.  The shared-channel
(`postMessage`) listener — the one stray traffic genuinely reaches —
receives a truthy non-iterable stray object such as `{}` (no key, so
certainly no entry): it passes the `typeof`/truthiness guard and then
`const [key, value] = event.data` throws a TypeError (`none`), instead
of ignoring the message.  The exclusive-channel
(`MessageChannelAsyncCloner`) handler, given the message `[0, 42]` on
the fresh instance with an empty pending table, looks up `undefined`
and calls it: it throws (`none`) instead of ignoring the message
(which would be `some` of the unchanged state). -/
theorem C5_counterexample :
    pmHandler (.nonIterable : PMData Nat) (PMinit ['x']) = none ∧
    pmHandler (.nonIterable : PMData Nat) (PMinit ['x']) ≠
      some (PMinit ['x'], false) ∧
    MConmessage 0 (42 : Nat) (MCinit (α := Nat)) = none ∧
    MConmessage 0 (42 : Nat) (MCinit (α := Nat)) ≠ some (MCinit (α := Nat)) := by
  decide

/-- C5 (amended): The shared-channel (`postMessage`) delivery handler
ignores — without invoking a continuation, removing an entry, failing,
or stopping propagation — every inbound message failing the
object/truthiness guard and every destructurable message whose key is
falsy or has no entry in the pending-request table, but it throws at
destructuring on truthy non-iterable event data; the exclusive-channel
(`MessageChannel`) handler assumes every delivered key is pending and
throws on a message whose key has no entry.  When the key does have an
entry, both handlers invoke and remove the continuation exactly
once. -/
theorem C5_amended_delivery_handler {α : Type} :
    (∀ (s : PMState α) (k : List Char) (value : α),
       mapGet s.pendingClones k = none →
       pmHandler (.pair k value) s = some (s, false)) ∧
    (∀ s : PMState α, pmHandler (.notObject : PMData α) s = some (s, false)) ∧
    (∀ s : PMState α, pmHandler (.nonIterable : PMData α) s = none) ∧
    (∀ (s : PMState α) (k : List Char) (pid : Nat) (value : α), k ≠ [] →
       mapGet s.pendingClones k = some pid →
       pmHandler (.pair k value) s =
         some ({ s with
                  resolved := s.resolved ++ [(pid, value)]
                  pendingClones := mapDelete s.pendingClones k }, true) ∧
       mapGet (mapDelete s.pendingClones k) k = none) ∧
    (∀ (s : MCState α) (k pid : Nat) (value : α),
       mapGet s.pendingClones k = some pid →
       MConmessage k value s =
         some { s with
                 resolved := s.resolved ++ [(pid, value)]
                 pendingClones := mapDelete s.pendingClones k } ∧
       mapGet (mapDelete s.pendingClones k) k = none) ∧
    (∀ (s : MCState α) (k : Nat) (value : α),
       mapGet s.pendingClones k = none → MConmessage k value s = none) := by
  refine ⟨?_, ?_, ?_, ?_, ?_, ?_⟩
  · intro s k value h
    exact pmHandler_ignores value h
  · intro s
    exact pmHandler_notObject s
  · intro s
    exact pmHandler_nonIterable s
  · intro s k pid value hk h
    exact ⟨pmHandler_match value hk h, mapGet_mapDelete_self _ _⟩
  · intro s k pid value h
    exact ⟨MConmessage_match value h, mapGet_mapDelete_self _ _⟩
  · intro s k value h
    exact MConmessage_unknown value h

/-- Witness for the amended C5 on concrete states: an unknown stray key
and a non-object message are ignored by the `postMessage` listener, a
truthy non-iterable stray makes it throw, and both handlers
resolve-and-remove on a pending key. -/
theorem C5_witness :
    pmHandler (.pair ['z'] (3 : Nat)) (PMinit ['x']) = some (PMinit ['x'], false) ∧
    pmHandler (.notObject : PMData Nat) pmMidState = some (pmMidState, false) ∧
    pmHandler (.nonIterable : PMData Nat) pmMidState = none ∧
    pmHandler (.pair ['x', '-', '0'] (5 : Nat)) pmMidState =
      some ({ pmMidState with
               resolved := pmMidState.resolved ++ [(0, 5)]
               pendingClones := mapDelete pmMidState.pendingClones ['x', '-', '0'] },
            true) ∧
    MConmessage 0 (5 : Nat) mcMidState =
      some { mcMidState with
              resolved := mcMidState.resolved ++ [(0, 5)]
              pendingClones := mapDelete mcMidState.pendingClones 0 } ∧
    MConmessage 7 (5 : Nat) mcMidState = none := by
  have h := C5_amended_delivery_handler (α := Nat)
  exact ⟨h.1 (PMinit ['x']) ['z'] 3 (by decide),
    h.2.1 pmMidState,
    h.2.2.1 pmMidState,
    (h.2.2.2.1 pmMidState ['x', '-', '0'] 0 5 (by decide) (by decide)).1,
    (h.2.2.2.2.1 mcMidState 0 0 5 (by decide)).1,
    h.2.2.2.2.2 mcMidState 7 5 (by decide)⟩

/-- C6: A strategy that cannot operate synchronously fails
`cloneSync` with the "not supported" error for every value (the three
async strategies inherit the base method), and the base `cloneAsync` is
a trivial wrap of `cloneSync`: it returns exactly `cloneSync`'s
outcome, resolving with its result and rejecting with the error it
throws. -/
theorem C6_sync_unsupported_async_wraps {α : Type} :
    (∀ value : α, MessageChannelAsyncCloner.cloneSync value = .error "not supported") ∧
    (∀ value : α, IndexedDBAsyncCloner.cloneSync value = .error "not supported") ∧
    (∀ value : α, PostMessageAsyncCloner.cloneSync value = .error "not supported") ∧
    (∀ (cloneSync : α → Except String α) (value : α),
       StructuredCloner.cloneAsync cloneSync value = cloneSync value) ∧
    (∀ (cloneSync : α → Except String α) (value : α) (r : α),
       cloneSync value = .ok r → StructuredCloner.cloneAsync cloneSync value = .ok r) ∧
    (∀ (cloneSync : α → Except String α) (value : α) (e : String),
       cloneSync value = .error e →
         StructuredCloner.cloneAsync cloneSync value = .error e) := by
  refine ⟨fun _ => rfl, fun _ => rfl, fun _ => rfl, fun _ _ => rfl, ?_, ?_⟩
  · intro c value r h
    rw [StructuredCloner.cloneAsync, h]
  · intro c value e h
    rw [StructuredCloner.cloneAsync, h]

/-- Witness for C6 at concrete values and a concrete `cloneSync`. -/
theorem C6_witness :
    MessageChannelAsyncCloner.cloneSync (7 : Nat) = .error "not supported" ∧
    IndexedDBAsyncCloner.cloneSync (7 : Nat) = .error "not supported" ∧
    PostMessageAsyncCloner.cloneSync (7 : Nat) = .error "not supported" ∧
    StructuredCloner.cloneAsync (fun v : Nat => .ok (v + 1)) 7 = .ok 8 ∧
    StructuredCloner.cloneAsync (StructuredCloner.cloneSync (α := Nat)) 7 =
      .error "not supported" := by
  have h := C6_sync_unsupported_async_wraps (α := Nat)
  exact ⟨h.1 7, h.2.1 7, h.2.2.1 7,
    h.2.2.2.2.1 (fun v : Nat => .ok (v + 1)) 7 8 rfl,
    h.2.2.2.2.2 (StructuredCloner.cloneSync (α := Nat)) 7 "not supported" rfl⟩

/-- C7: The store strategy awaits the opened database; each clone then
adds the value at key 1, immediately reads it back, resolves the
caller's promise with the read-back copy (the double structured clone
of the argument), and aborts the transaction, leaving the committed
store exactly as it was — in particular still empty — and any schema
present when the upgrade handler runs during open is deleted, leaving
only the empty `'cloning'` store. -/
theorem C7_store_round_trip {α : Type} (clone : α → α) (value : α) :
    (∀ db : IDB α, onupgradeneeded db = ⟨[("cloning", [])]⟩) ∧
    (IDBClonerConstruct (α := α) none).dbReady = ⟨[("cloning", [])]⟩ ∧
    (∀ st : IDBClonerState α, mapGet st.dbReady.stores "cloning" = some [] →
       IDBClonerCloneAsync clone st value = (st, .ok (some (clone (clone value))))) := by
  refine ⟨onupgradeneeded_empties, rfl, ?_⟩
  intro st hst
  simp only [IDBClonerCloneAsync, idbCloneAsync, hst]
  simp [mapGet, mapSet, transactionAbort]

/-- Witness for C7: cloning `41` through a freshly constructed store
strategy with `Nat.succ` as the platform clone. -/
theorem C7_witness :
    mapGet (IDBClonerConstruct (α := Nat) none).dbReady.stores "cloning" = some [] ∧
    IDBClonerCloneAsync Nat.succ (IDBClonerConstruct none) 41 =
      (IDBClonerConstruct none, .ok (some 43)) ∧
    onupgradeneeded (⟨[("legacy", [(1, 9)])]⟩ : IDB Nat) = ⟨[("cloning", [])]⟩ := by
  have h := C7_store_round_trip Nat.succ 41
  exact ⟨by decide, h.2.2 (IDBClonerConstruct none) (by decide),
    h.1 ⟨[("legacy", [(1, 9)])]⟩⟩

/-- C8: Module initialization registers exactly the four cloner classes
in declaration order, and the `registerCloner` decorator appends
exactly one entry and returns its argument unchanged. -/
theorem C8_registry_contents :
    clonerFactories =
      [ClonerClass.nodeV8SerializeSyncCloner, ClonerClass.messageChannelAsyncCloner,
       ClonerClass.indexedDBAsyncCloner, ClonerClass.postMessageAsyncCloner] ∧
    ∀ (reg : List ClonerClass) (c : ClonerClass),
      registerCloner reg c = (reg ++ [c], c) :=
  ⟨rfl, fun _ _ => rfl⟩

/-- C9: `MessageChannelAsyncCloner` draws keys from a per-instance
counter that starts at 0 and is incremented by exactly 1 on every
`cloneAsync` call, so over any trace the keys ever assigned are
`0, 1, ..., nextIndex - 1` with no key assigned twice in the lifetime
of the instance — even after its pending entry has been removed. -/
theorem C9_counter_keys_never_reassigned {α : Type} (clone : α → α) :
    (∀ (pid : Nat) (value : α) (s : MCState α),
       (MCcloneAsync pid value s).nextIndex = s.nextIndex + 1 ∧
       (MCcloneAsync pid value s).assigned = s.assigned ++ [s.nextIndex]) ∧
    (MCinit (α := α)).nextIndex = 0 ∧
    (∀ (es : List (MCEvent α)) (s : MCState α), MCrun clone es MCinit = some s →
       s.assigned = List.range s.nextIndex ∧ s.assigned.Nodup) := by
  refine ⟨fun pid value s => ⟨rfl, rfl⟩, rfl, ?_⟩
  intro es s hrun
  obtain ⟨_, hassigned, _⟩ := MCrun_reach clone es MCReachInv_init hrun
  exact ⟨hassigned, hassigned ▸ List.nodup_range _⟩

/-- Witness for C9 on a trace whose first request has already completed
before the second is issued: the second still gets the fresh key 1. -/
theorem C9_witness :
    MCrun (fun x : Nat => x) [MCEvent.send 0 5, MCEvent.deliver 0, MCEvent.send 1 7]
        MCinit = some
        { pendingClones := [(1, 1)], nextIndex := 2, inFlight := [(1, 7)],
          resolved := [(0, 5)], assigned := [0, 1], disabled := false } ∧
    ([0, 1] : List Nat) = List.range 2 ∧ ([0, 1] : List Nat).Nodup := by
  have h := C9_counter_keys_never_reassigned (α := Nat) (fun x => x)
  have hrun : MCrun (fun x : Nat => x)
      [MCEvent.send 0 5, MCEvent.deliver 0, MCEvent.send 1 7] MCinit = some
      { pendingClones := [(1, 1)], nextIndex := 2, inFlight := [(1, 7)],
        resolved := [(0, 5)], assigned := [0, 1], disabled := false } := by decide
  have hres := h.2.2 [MCEvent.send 0 5, MCEvent.deliver 0, MCEvent.send 1 7] _ hrun
  exact ⟨hrun, hres.1, hres.2⟩

/-- C10: `disabled` is false on every freshly constructed cloner state
and no operation — `cloneAsync`, a delivery, stray traffic, or a store
round trip — ever sets it, despite its declared purpose of marking a
cloner disabled after an error. -/
theorem C10_disabled_never_set {α : Type} (clone : α → α) :
    (MCinit (α := α)).disabled = false ∧
    (∀ nonce : List Char, (PMinit (α := α) nonce).disabled = false) ∧
    (∀ prior : Option (IDB α), (IDBClonerConstruct prior).disabled = false) ∧
    (∀ (es : List (MCEvent α)) (s : MCState α), MCrun clone es MCinit = some s →
       s.disabled = false) ∧
    (∀ (nonce : List Char) (es : List (PMEvent α)) (s : PMState α),
       pmRun clone es (PMinit nonce) = some s → s.disabled = false) ∧
    (∀ (st : IDBClonerState α) (value : α),
       (IDBClonerCloneAsync clone st value).1.disabled = st.disabled) := by
  refine ⟨rfl, fun _ => rfl, fun _ => rfl, ?_, ?_, fun _ _ => rfl⟩
  · intro es s hrun
    exact (MCrun_disabled clone es hrun).trans rfl
  · intro nonce es s hrun
    exact (pmRun_disabled clone es hrun).trans rfl

/-- Witness for C10 on concrete one-request traces. -/
theorem C10_witness :
    mcWitnessState.disabled = false ∧
    pmWitnessState.disabled = false ∧
    (IDBClonerCloneAsync Nat.succ (IDBClonerConstruct none) 41).1.disabled =
      (IDBClonerConstruct (α := Nat) none).disabled := by
  have h := C10_disabled_never_set (α := Nat) (fun x => x)
  refine ⟨?_, ?_, C10_disabled_never_set Nat.succ |>.2.2.2.2.2 (IDBClonerConstruct none) 41⟩
  · exact h.2.2.2.1 [MCEvent.send 0 5, MCEvent.deliver 0] mcWitnessState (by decide)
  · exact h.2.2.2.2.1 ['x'] pmWitnessEvents pmWitnessState (by decide)

end NativeClone
